import Mathlib

/-!
Verification of `sieve-rs` (`src/prime_factor_sieve.rs`): a smallest-prime-factor
sieve with queries for primality, prime factorization, divisor enumeration and
coprimality.  The Rust code is shallowly embedded: the `Vec<u32>` table becomes a
`List Nat` accessed with `List.getD` / `List.set`, the lazy iterators become the
lists of the values they yield, and the two unbounded loops of `prime_factors`
carry explicit fuel (shown sufficient on every valid input).
-/

namespace SieveRs

/-- Inner marking loop of `PrimeFactorSieve::new`: for `j` in `(i..=n).step_by(i)`,
if `v[j] == 0` then `v[j] = i`.  The visited indices are `j = i * (t + 1)` for
`t < n / i`, exactly the multiples of `i` in `[i, n]`. -/
def sieveInner (n i : Nat) (v : List Nat) : List Nat :=
  (List.range (n / i)).foldl
    (fun w t => if w.getD (i * (t + 1)) 0 = 0 then w.set (i * (t + 1)) i else w) v

/-- The table built by `PrimeFactorSieve::new(n)`: start from `vec![0; n + 1]` and,
for each `i` in `2..=n` whose entry is still `0` (i.e. `i` is prime), mark the
multiples of `i`.  Entries `0` and `1` stay `0`. -/
def sieveTable (n : Nat) : List Nat :=
  (List.range' 2 (n - 1)).foldl
    (fun v i => if v.getD i 0 ≠ 0 then v else sieveInner n i v)
    (List.replicate (n + 1) 0)

/-- The `while self.smallest_prime_factors[n] == p { n /= p; count += 1 }` loop of
`prime_factors`, with explicit fuel for totality.  On every valid input the fuel
passed in (`spfWhile` is always called with fuel at least the running remainder)
is shown to be sufficient, so the fuel branch is never the one taken. -/
def spfWhile (v : List Nat) (p : Nat) : Nat → Nat → Nat → Nat × Nat
  | 0, n, count => (n, count)
  | fuel + 1, n, count =>
    if v.getD n 0 = p then spfWhile v p fuel (n / p) (count + 1) else (n, count)

/-- The `std::iter::from_fn` generator of `prime_factors`, materialized as the list
of pairs it yields: while `n != 1`, read `p = table[n]`, divide `n` by `p` once
(`count = 1`), keep dividing while `table[n] == p`, and yield `(p, count)`.
Explicit fuel for totality, shown sufficient on every valid input. -/
def primeFactorsLoop (v : List Nat) : Nat → Nat → List (Nat × Nat)
  | 0, _ => []
  | fuel + 1, n =>
    if n = 1 then []
    else
      let p := v.getD n 0
      let r := spfWhile v p n (n / p) 1
      (p, r.2) :: primeFactorsLoop v fuel r.1

/-- The merge-walk loop of `coprime`: state `(ap, bp)` plus the two remaining
cursors.  Equal heads means a common prime (`false`); otherwise advance the
cursor with the smaller head; an exhausted cursor means no common prime
(`true`). -/
def coprimeWalk : Nat → List Nat → Nat → List Nat → Bool
  | ap, al, bp, bl =>
    if ap = bp then false
    else if ap < bp then
      match al with
      | [] => true
      | ap' :: al' => coprimeWalk ap' al' bp bl
    else
      match bl with
      | [] => true
      | bp' :: bl' => coprimeWalk ap al bp' bl'
termination_by ap al bp bl => al.length + bl.length

/-- `struct PrimeFactorSieve { smallest_prime_factors: Vec<u32> }`. -/
structure PrimeFactorSieve where
  smallest_prime_factors : List Nat

namespace PrimeFactorSieve

/-- `PrimeFactorSieve::new(n)`. -/
def new (n : Nat) : PrimeFactorSieve :=
  ⟨sieveTable n⟩

/-- `is_prime(n)`: `self.smallest_prime_factors[n as usize] == n`. -/
def is_prime (s : PrimeFactorSieve) (n : Nat) : Bool :=
  s.smallest_prime_factors.getD n 0 == n

/-- `primes()`: enumerate the table, skip indices `0` and `1`, keep the indices
`i` with `table[i] == i`. -/
def primes (s : PrimeFactorSieve) : List Nat :=
  ((List.range s.smallest_prime_factors.length).drop 2).filter
    (fun i => s.smallest_prime_factors.getD i 0 == i)

/-- `prime_factors(n)`: the list of `(prime, multiplicity)` pairs the iterator
yields.  The generator runs at most `log2 n` times, so fuel `n` suffices. -/
def prime_factors (s : PrimeFactorSieve) (n : Nat) : List (Nat × Nat) :=
  primeFactorsLoop s.smallest_prime_factors n n

/-- `factors_count(n)`: `prime_factors(n).map(|(_, pow)| pow + 1).product()`. -/
def factors_count (s : PrimeFactorSieve) (n : Nat) : Nat :=
  ((s.prime_factors n).map (fun pm => pm.2 + 1)).prod

/-- `factors_generator(multiplier, prime_factors)`: if the cursor is exhausted,
yield `multiplier`; otherwise take `(p, m)`, iterate over the powers
`1, p, p^2, ..., p^m` (the `std::iter::successors` chain), and for each power `q`
recurse on the remaining cursor with multiplier `q * multiplier`, concatenating
the sub-sequences (`flat_map`). -/
def factors_generator (multiplier : Nat) : List (Nat × Nat) → List Nat
  | [] => [multiplier]
  | (p, m) :: rest =>
    ((List.range (m + 1)).map (fun pow => p ^ pow)).flatMap
      (fun q => factors_generator (q * multiplier) rest)

/-- `factors(n)`: `self.factors_generator(1, self.prime_factors(n))`. -/
def factors (s : PrimeFactorSieve) (n : Nat) : List Nat :=
  factors_generator 1 (s.prime_factors n)

/-- `coprime(a, b)`: take the first prime of each factor iterator; if either is
absent the answer is `true`, otherwise run the merge-walk loop. -/
def coprime (s : PrimeFactorSieve) (a b : Nat) : Bool :=
  match (s.prime_factors a).map Prod.fst, (s.prime_factors b).map Prod.fst with
  | [], _ => true
  | _ :: _, [] => true
  | ap :: al, bp :: bl => coprimeWalk ap al bp bl

end PrimeFactorSieve

/-! ### Basic list-access lemmas -/

/-- `getD`-description of `List.set` at default `0`. -/
lemma getD_set (l : List Nat) (i j x : Nat) :
    (l.set i x).getD j 0 = if i = j ∧ i < l.length then x else l.getD j 0 := by
  simp only [List.getD_eq_getElem?_getD, List.getElem?_set]
  by_cases hij : i = j
  · subst hij
    by_cases hi : i < l.length
    · simp [hi]
    · simp [hi, List.getElem?_eq_none (Nat.le_of_not_lt hi)]
  · simp [hij]

/-- A table of zeroes reads `0` everywhere (in or out of range). -/
lemma getD_replicate_zero (k m : Nat) : (List.replicate k 0).getD m 0 = 0 := by
  simp only [List.getD_eq_getElem?_getD, List.getElem?_replicate]
  split <;> simp

/-- Out-of-range reads give the default `0`. -/
lemma getD_eq_zero_of_le_length (l : List Nat) (m : Nat) (h : l.length ≤ m) :
    l.getD m 0 = 0 := by
  simp [List.getD_eq_getElem?_getD, List.getElem?_eq_none h]

/-! ### Correctness of the sieve construction -/

/-- The marking fold preserves the table length. -/
lemma markLoop_length (i : Nat) (L : List Nat) :
    ∀ v : List Nat,
      (L.foldl (fun w t => if w.getD (i * (t + 1)) 0 = 0
          then w.set (i * (t + 1)) i else w) v).length = v.length := by
  induction L with
  | nil => intro v; rfl
  | cons t L ih =>
    intro v
    simp only [List.foldl_cons]
    by_cases h : v.getD (i * (t + 1)) 0 = 0
    · rw [if_pos h, ih, List.length_set]
    · rw [if_neg h, ih]

/-- What each cell holds after the marking fold: cells that were `0`, are in
range and whose index is hit by some `t` in `L` now hold `i`; all others are
unchanged. -/
lemma markLoop_getD (i : Nat) (hi : i ≠ 0) (L : List Nat) :
    ∀ (v : List Nat) (m : Nat),
      ((L.foldl (fun w t => if w.getD (i * (t + 1)) 0 = 0
          then w.set (i * (t + 1)) i else w) v).getD m 0)
      = if (∃ t ∈ L, i * (t + 1) = m) ∧ m < v.length ∧ v.getD m 0 = 0 then i
        else v.getD m 0 := by
  induction L with
  | nil => intro v m; simp
  | cons t L ih =>
    intro v m
    simp only [List.foldl_cons]
    by_cases hj0 : v.getD (i * (t + 1)) 0 = 0
    · rw [if_pos hj0, ih, getD_set, List.length_set]
      by_cases hm : i * (t + 1) = m
      · by_cases hlen : m < v.length
        · have hset : (i * (t + 1) = m ∧ i * (t + 1) < v.length) := ⟨hm, hm ▸ hlen⟩
          rw [if_pos hset]
          have h1 : ¬ ((∃ u ∈ L, i * (u + 1) = m) ∧ m < v.length ∧ i = 0) := by
            rintro ⟨-, -, h⟩; exact hi h
          rw [if_neg h1]
          have h2 : (∃ u ∈ t :: L, i * (u + 1) = m) ∧ m < v.length ∧ v.getD m 0 = 0 :=
            ⟨⟨t, List.mem_cons_self t L, hm⟩, hlen, hm ▸ hj0⟩
          rw [if_pos h2]
        · have hset : ¬ (i * (t + 1) = m ∧ i * (t + 1) < v.length) := by
            rintro ⟨h, hl⟩; exact hlen (h ▸ hl)
          rw [if_neg hset]
          have h1 : ¬ ((∃ u ∈ L, i * (u + 1) = m) ∧ m < v.length ∧ v.getD m 0 = 0) := by
            rintro ⟨-, hl, -⟩; exact hlen hl
          have h2 : ¬ ((∃ u ∈ t :: L, i * (u + 1) = m) ∧ m < v.length ∧ v.getD m 0 = 0) := by
            rintro ⟨-, hl, -⟩; exact hlen hl
          rw [if_neg h1, if_neg h2]
      · have hset : ¬ (i * (t + 1) = m ∧ i * (t + 1) < v.length) := by
          rintro ⟨h, -⟩; exact hm h
        rw [if_neg hset]
        have hiff : ((∃ u ∈ L, i * (u + 1) = m) ∧ m < v.length ∧ v.getD m 0 = 0)
            ↔ ((∃ u ∈ t :: L, i * (u + 1) = m) ∧ m < v.length ∧ v.getD m 0 = 0) := by
          constructor
          · rintro ⟨⟨u, hu, he⟩, h1, h2⟩
            exact ⟨⟨u, List.mem_cons_of_mem t hu, he⟩, h1, h2⟩
          · rintro ⟨⟨u, hu, he⟩, h1, h2⟩
            rcases List.mem_cons.mp hu with rfl | hu
            · exact absurd he hm
            · exact ⟨⟨u, hu, he⟩, h1, h2⟩
        by_cases hc : (∃ u ∈ L, i * (u + 1) = m) ∧ m < v.length ∧ v.getD m 0 = 0
        · rw [if_pos hc, if_pos (hiff.mp hc)]
        · rw [if_neg hc, if_neg (fun h => hc (hiff.mpr h))]
    · rw [if_neg hj0, ih]
      have hiff : ((∃ u ∈ L, i * (u + 1) = m) ∧ m < v.length ∧ v.getD m 0 = 0)
          ↔ ((∃ u ∈ t :: L, i * (u + 1) = m) ∧ m < v.length ∧ v.getD m 0 = 0) := by
        constructor
        · rintro ⟨⟨u, hu, he⟩, h1, h2⟩
          exact ⟨⟨u, List.mem_cons_of_mem t hu, he⟩, h1, h2⟩
        · rintro ⟨⟨u, hu, he⟩, h1, h2⟩
          rcases List.mem_cons.mp hu with rfl | hu
          · exact absurd (he ▸ h2) hj0
          · exact ⟨⟨u, hu, he⟩, h1, h2⟩
      by_cases hc : (∃ u ∈ L, i * (u + 1) = m) ∧ m < v.length ∧ v.getD m 0 = 0
      · rw [if_pos hc, if_pos (hiff.mp hc)]
      · rw [if_neg hc, if_neg (fun h => hc (hiff.mpr h))]

/-- The indices hit by the inner loop are exactly the multiples of `i` in `[i, N]`. -/
lemma mark_index_iff (i m N : Nat) (hi : 0 < i) :
    (∃ t ∈ List.range (N / i), i * (t + 1) = m) ↔ i ∣ m ∧ i ≤ m ∧ m ≤ N := by
  constructor
  · rintro ⟨t, ht, rfl⟩
    rw [List.mem_range] at ht
    refine ⟨Dvd.intro _ rfl, ?_, ?_⟩
    · have h1 : i * 1 ≤ i * (t + 1) := Nat.mul_le_mul_left i (by omega)
      simpa using h1
    · calc i * (t + 1) ≤ i * (N / i) := Nat.mul_le_mul_left i (by omega)
        _ ≤ N := Nat.mul_div_le N i
  · rintro ⟨⟨s, rfl⟩, him, hmN⟩
    have hs : 1 ≤ s := by
      rcases Nat.eq_zero_or_pos s with rfl | h
      · simp at him; omega
      · exact h
    have hsN : s ≤ N / i := (Nat.le_div_iff_mul_le hi).mpr (by rw [Nat.mul_comm]; exact hmN)
    refine ⟨s - 1, List.mem_range.mpr (by omega), by rw [Nat.sub_add_cancel hs]⟩

/-- Invariant of the outer sieve loop after all `i ≤ k` have been processed:
exactly the cells whose smallest prime factor is at most `k` are filled, with
that smallest prime factor. -/
def SieveInv (N k : Nat) (v : List Nat) : Prop :=
  v.length = N + 1 ∧
    ∀ m, v.getD m 0 = if 2 ≤ m ∧ m ≤ N ∧ m.minFac ≤ k then m.minFac else 0

/-- One step of the outer loop (processing `i = k + 1`) advances the invariant. -/
lemma sieveStep_inv (N k : Nat) (v : List Nat) (hk : 1 ≤ k) (hkN : k + 1 ≤ N)
    (h : SieveInv N k v) :
    SieveInv N (k + 1) (if v.getD (k + 1) 0 ≠ 0 then v else sieveInner N (k + 1) v) := by
  obtain ⟨hlen, hv⟩ := h
  have hmf2 : ∀ m, 2 ≤ m → 2 ≤ m.minFac := fun m hm =>
    (Nat.minFac_prime (by omega)).two_le
  by_cases hz : v.getD (k + 1) 0 ≠ 0
  · rw [if_pos hz]
    have hcond : 2 ≤ k + 1 ∧ k + 1 ≤ N ∧ (k + 1).minFac ≤ k := by
      by_contra hc
      rw [hv (k + 1), if_neg hc] at hz
      exact hz rfl
    have hknotp : ¬ (k + 1).Prime := by
      intro hp
      have := Nat.Prime.minFac_eq hp
      omega
    refine ⟨hlen, fun m => ?_⟩
    rw [hv m]
    by_cases hm : 2 ≤ m ∧ m ≤ N
    · have hne : m.minFac ≠ k + 1 := by
        intro he
        exact hknotp (he ▸ Nat.minFac_prime (show m ≠ 1 by omega))
      by_cases hle : m.minFac ≤ k
      · rw [if_pos ⟨hm.1, hm.2, hle⟩, if_pos ⟨hm.1, hm.2, by omega⟩]
      · rw [if_neg (by tauto), if_neg (by rintro ⟨-, -, h3⟩; omega)]
    · rw [if_neg (by tauto), if_neg (by tauto)]
  · rw [if_neg hz]
    rw [not_not] at hz
    have hnotle : ¬ (k + 1).minFac ≤ k := by
      intro hle
      have := hv (k + 1)
      rw [if_pos ⟨by omega, hkN, hle⟩] at this
      have h2 := hmf2 (k + 1) (by omega)
      omega
    have hmfk : (k + 1).minFac = k + 1 := by
      have h1 : (k + 1).minFac ≤ k + 1 := Nat.minFac_le (by omega)
      omega
    have hkp : (k + 1).Prime := Nat.prime_def_minFac.mpr ⟨by omega, hmfk⟩
    constructor
    · rw [sieveInner, markLoop_length, hlen]
    · intro m
      rw [sieveInner, markLoop_getD (k + 1) (by omega), hv m]
      rw [hlen]
      by_cases hold : 2 ≤ m ∧ m ≤ N ∧ m.minFac ≤ k
      · rw [if_pos hold]
        have hmf0 : m.minFac ≠ 0 := by have := hmf2 m hold.1; omega
        rw [if_neg (by rintro ⟨-, -, h3⟩; exact hmf0 h3)]
        rw [if_pos ⟨hold.1, hold.2.1, by omega⟩]
      · rw [if_neg hold]
        by_cases hmark : (k + 1) ∣ m ∧ k + 1 ≤ m ∧ m ≤ N
        · have hmem := (mark_index_iff (k + 1) m N (by omega)).mpr hmark
          rw [if_pos ⟨hmem, by omega, rfl⟩]
          have hge : ¬ m.minFac ≤ k := by
            intro hle
            exact hold ⟨by omega, hmark.2.2, hle⟩
          have hle : m.minFac ≤ k + 1 :=
            Nat.minFac_le_of_dvd (by omega) hmark.1
          have heq : m.minFac = k + 1 := by omega
          rw [if_pos ⟨by omega, hmark.2.2, by omega⟩, heq]
        · rw [if_neg (by
            rintro ⟨hmem, -, -⟩
            exact hmark ((mark_index_iff (k + 1) m N (by omega)).mp hmem))]
          rw [if_neg (by
            rintro ⟨h2, hN2, hle⟩
            have hge : ¬ m.minFac ≤ k := fun hle2 => hold ⟨h2, hN2, hle2⟩
            have heq : m.minFac = k + 1 := by omega
            exact hmark ⟨heq ▸ Nat.minFac_dvd m, heq ▸ Nat.minFac_le (by omega), hN2⟩)]

/-- Running the outer loop over `[k+1, ..., k+cnt]` advances the invariant from
`k` to `k + cnt`. -/
lemma sieve_outer (N : Nat) :
    ∀ (cnt k : Nat) (v : List Nat), 1 ≤ k → k + cnt ≤ N → SieveInv N k v →
      SieveInv N (k + cnt)
        ((List.range' (k + 1) cnt).foldl
          (fun v i => if v.getD i 0 ≠ 0 then v else sieveInner N i v) v) := by
  intro cnt
  induction cnt with
  | zero => intro k v _ _ h; simpa using h
  | succ c ih =>
    intro k v hk hkN h
    rw [List.range'_succ]
    simp only [List.foldl_cons]
    have step := sieveStep_inv N k v hk (by omega) h
    have hres := ih (k + 1) _ (by omega) (by omega) step
    have harith : k + 1 + c = k + (c + 1) := by omega
    rw [harith] at hres
    exact hres

/-- The outer fold preserves the table length. -/
lemma sieveOuter_length (N : Nat) (L : List Nat) :
    ∀ v : List Nat,
      (L.foldl (fun v i => if v.getD i 0 ≠ 0 then v else sieveInner N i v) v).length
        = v.length := by
  induction L with
  | nil => intro v; rfl
  | cons i L ih =>
    intro v
    simp only [List.foldl_cons]
    by_cases h : v.getD i 0 ≠ 0
    · rw [if_pos h, ih]
    · rw [if_neg h, ih, sieveInner, markLoop_length]

/-- The sieve table has length `N + 1`. -/
lemma sieveTable_length (N : Nat) : (sieveTable N).length = N + 1 := by
  rw [sieveTable, sieveOuter_length, List.length_replicate]

/-- Main sieve correctness: after construction, cell `m` holds the smallest
prime factor of `m` for `2 ≤ m ≤ N`, and `0` everywhere else. -/
lemma sieveTable_getD (N m : Nat) :
    (sieveTable N).getD m 0 = if 2 ≤ m ∧ m ≤ N then m.minFac else 0 := by
  rcases Nat.lt_or_ge N 2 with hN | hN
  · have he : List.range' 2 (N - 1) = [] := by
      have h0 : N - 1 = 0 := by omega
      rw [h0, List.range'_zero]
    rw [sieveTable, he, List.foldl_nil, getD_replicate_zero]
    rw [if_neg (by omega)]
  · have base : SieveInv N 1 (List.replicate (N + 1) 0) := by
      refine ⟨List.length_replicate (N + 1) 0, fun m => ?_⟩
      rw [getD_replicate_zero]
      rw [if_neg (by
        rintro ⟨h2, -, hle⟩
        have := (Nat.minFac_prime (show m ≠ 1 by omega)).two_le
        omega)]
    have fin := sieve_outer N (N - 1) 1 _ (by omega) (by omega) base
    have harith : 1 + (N - 1) = N := by omega
    rw [harith] at fin
    have := fin.2 m
    rw [sieveTable]
    have h12 : (1 : Nat) + 1 = 2 := rfl
    rw [h12] at this
    rw [this]
    by_cases hm : 2 ≤ m ∧ m ≤ N
    · have hle : m.minFac ≤ N :=
        le_trans (Nat.minFac_le (by omega)) hm.2
      rw [if_pos ⟨hm.1, hm.2, hle⟩, if_pos hm]
    · rw [if_neg (by tauto), if_neg hm]

/-! ### Correctness of `prime_factors` -/

/-- The division loop extracts the full power of `p` from the running remainder:
for a correct table, a prime `p` not exceeding any prime factor of `n`, and
enough fuel, `spfWhile` divides out `p ^ (n.factorization p)` and adds the
multiplicity to the count. -/
lemma spfWhile_spec (N : Nat) (v : List Nat)
    (hv : ∀ m, v.getD m 0 = if 2 ≤ m ∧ m ≤ N then m.minFac else 0)
    (p : Nat) (hp : p.Prime) :
    ∀ n, 1 ≤ n → n ≤ N → (∀ q, q.Prime → q ∣ n → p ≤ q) →
      ∀ fuel count, n ≤ fuel →
        spfWhile v p fuel n count
          = (n / p ^ n.factorization p, count + n.factorization p) := by
  intro n
  induction n using Nat.strong_induction_on with
  | _ n ih =>
    intro hn1 hnN hmin fuel count hfuel
    by_cases hpn : p ∣ n
    · have hp2 := hp.two_le
      have hnp : p ≤ n := Nat.le_of_dvd (by omega) hpn
      have hgetD : v.getD n 0 = p := by
        rw [hv n, if_pos ⟨by omega, hnN⟩]
        exact Nat.le_antisymm (Nat.minFac_le_of_dvd hp2 hpn)
          (hmin _ (Nat.minFac_prime (by omega)) (Nat.minFac_dvd n))
      obtain ⟨f, rfl⟩ : ∃ f, fuel = f + 1 := ⟨fuel - 1, by omega⟩
      rw [spfWhile, if_pos hgetD]
      have hlt : n / p < n := Nat.div_lt_self (by omega) (by omega)
      have hrec := ih (n / p) hlt (Nat.one_le_div_iff (by omega) |>.mpr hnp)
        (le_trans (Nat.div_le_self n p) hnN)
        (fun q hq hqd => hmin q hq (hqd.trans (Nat.div_dvd_of_dvd hpn)))
        f (count + 1) (by omega)
      rw [hrec]
      have hpos : 0 < n.factorization p := hp.factorization_pos_of_dvd (by omega) hpn
      have hk' : (n / p).factorization p = n.factorization p - 1 := by
        rw [Nat.factorization_div hpn, Finsupp.tsub_apply, hp.factorization,
          Finsupp.single_eq_same]
      obtain ⟨k', hk⟩ : ∃ k', n.factorization p = k' + 1 :=
        ⟨n.factorization p - 1, by omega⟩
      rw [hk' , hk, Nat.add_sub_cancel]
      simp only [Prod.mk.injEq]
      constructor
      · rw [Nat.div_div_eq_div_mul, ← pow_succ']
      · omega
    · have hk0 : n.factorization p = 0 := Nat.factorization_eq_zero_of_not_dvd hpn
      have hne : v.getD n 0 ≠ p := by
        rw [hv n]
        by_cases h2 : 2 ≤ n ∧ n ≤ N
        · rw [if_pos h2]
          intro he
          exact hpn (he ▸ Nat.minFac_dvd n)
        · rw [if_neg h2]
          have := hp.two_le
          omega
      cases fuel with
      | zero => rw [spfWhile, hk0]; simp
      | succ f => rw [spfWhile, if_neg hne, hk0]; simp

/-- Master characterization of the `prime_factors` generator: for a correct
table, a valid input `n` and enough fuel, the yielded pairs multiply back to
`n`, their primes are strictly increasing, and every pair is a prime together
with its exact multiplicity in `n`. -/
lemma primeFactorsLoop_spec (N : Nat) (v : List Nat)
    (hv : ∀ m, v.getD m 0 = if 2 ≤ m ∧ m ≤ N then m.minFac else 0) :
    ∀ n, 1 ≤ n → n ≤ N → ∀ fuel, n ≤ fuel →
      ((primeFactorsLoop v fuel n).map (fun pm => pm.1 ^ pm.2)).prod = n ∧
      (primeFactorsLoop v fuel n).Pairwise (fun a b => a.1 < b.1) ∧
      ∀ pm ∈ primeFactorsLoop v fuel n,
        pm.1.Prime ∧ 0 < pm.2 ∧ pm.2 = n.factorization pm.1 := by
  intro n
  induction n using Nat.strong_induction_on with
  | _ n ih =>
    intro hn1 hnN fuel hfuel
    obtain ⟨f, rfl⟩ : ∃ f, fuel = f + 1 := ⟨fuel - 1, by omega⟩
    by_cases h1 : n = 1
    · subst h1
      rw [primeFactorsLoop, if_pos rfl]
      simp
    · have hn2 : 2 ≤ n := by omega
      have hgetD : v.getD n 0 = n.minFac := by rw [hv n, if_pos ⟨hn2, hnN⟩]
      have hp : n.minFac.Prime := Nat.minFac_prime h1
      have hpdvd : n.minFac ∣ n := Nat.minFac_dvd n
      have hw := spfWhile_spec N v hv n.minFac hp (n / n.minFac)
        (Nat.one_le_div_iff (by have := hp.two_le; omega) |>.mpr
          (Nat.minFac_le (by omega)))
        (le_trans (Nat.div_le_self n n.minFac) hnN)
        (fun q hq hqd =>
          Nat.minFac_le_of_dvd hq.two_le (hqd.trans (Nat.div_dvd_of_dvd hpdvd)))
        n 1 (Nat.div_le_self n n.minFac)
      have hpos : 0 < n.factorization n.minFac :=
        hp.factorization_pos_of_dvd (by omega) hpdvd
      have hk' : (n / n.minFac).factorization n.minFac
          = n.factorization n.minFac - 1 := by
        rw [Nat.factorization_div hpdvd, Finsupp.tsub_apply, hp.factorization,
          Finsupp.single_eq_same]
      obtain ⟨k', hkk⟩ : ∃ k', n.factorization n.minFac = k' + 1 :=
        ⟨n.factorization n.minFac - 1, by omega⟩
      have hrem : n / n.minFac / n.minFac ^ ((n / n.minFac).factorization n.minFac)
          = n / n.minFac ^ n.factorization n.minFac := by
        rw [hk', hkk, Nat.add_sub_cancel, Nat.div_div_eq_div_mul, ← pow_succ']
      have hcount : 1 + (n / n.minFac).factorization n.minFac
          = n.factorization n.minFac := by
        rw [hk']
        omega
      have hstep : primeFactorsLoop v (f + 1) n
          = (n.minFac, n.factorization n.minFac)
            :: primeFactorsLoop v f (n / n.minFac ^ n.factorization n.minFac) := by
        simp only [primeFactorsLoop, if_neg h1, hgetD, hw, hrem, hcount]
      set r := n / n.minFac ^ n.factorization n.minFac with hr
      have hrdvd : r ∣ n := Nat.ordCompl_dvd n n.minFac
      have hrpos : 0 < r := Nat.ordCompl_pos n.minFac (by omega)
      have hpr : ¬ n.minFac ∣ r := Nat.not_dvd_ordCompl hp (by omega)
      have hrlt : r < n := by
        rcases Nat.lt_or_ge r n with h | h
        · exact h
        · exfalso
          have : r = n := Nat.le_antisymm (Nat.le_of_dvd (by omega) hrdvd) h
          exact hpr (this ▸ hpdvd)
      have hih := ih r hrlt (by omega) (le_trans (le_of_lt hrlt) hnN) f (by omega)
      obtain ⟨ihprod, ihpw, ihmem⟩ := hih
      have hmemdvd : ∀ pm ∈ primeFactorsLoop v f r, pm.1 ∣ r := by
        intro pm hpm
        obtain ⟨hq, hqpos, hqfac⟩ := ihmem pm hpm
        exact Nat.dvd_of_factorization_pos (by omega)
      have hgt : ∀ pm ∈ primeFactorsLoop v f r, n.minFac < pm.1 := by
        intro pm hpm
        obtain ⟨hq, hqpos, hqfac⟩ := ihmem pm hpm
        have hqn : pm.1 ∣ n := (hmemdvd pm hpm).trans hrdvd
        have hle : n.minFac ≤ pm.1 := Nat.minFac_le_of_dvd hq.two_le hqn
        have hne : pm.1 ≠ n.minFac := by
          intro he
          exact hpr (he ▸ hmemdvd pm hpm)
        omega
      refine ⟨?_, ?_, ?_⟩
      · rw [hstep]
        simp only [List.map_cons, List.prod_cons, ihprod]
        exact Nat.ordProj_mul_ordCompl_eq_self n n.minFac
      · rw [hstep]
        exact List.Pairwise.cons (fun pm hpm => hgt pm hpm) ihpw
      · rw [hstep]
        intro pm hpm
        rcases List.mem_cons.mp hpm with rfl | hpm'
        · exact ⟨hp, hpos, rfl⟩
        · obtain ⟨hq, hqpos, hqfac⟩ := ihmem pm hpm'
          refine ⟨hq, hqpos, ?_⟩
          rw [hqfac, hr]
          rw [Nat.factorization_ordCompl n n.minFac]
          rw [Finsupp.erase_ne (by
            intro he
            exact hpr (he ▸ hmemdvd pm hpm'))]

/-! ### Correctness of `factors_generator` -/

namespace PrimeFactorSieve

/-- The accumulated multiplier factors out of `factors_generator`. -/
lemma factors_generator_mul (l : List (Nat × Nat)) :
    ∀ mult, factors_generator mult l = (factors_generator 1 l).map (· * mult) := by
  induction l with
  | nil => intro mult; simp [factors_generator]
  | cons pm rest ih =>
    intro mult
    obtain ⟨p, m⟩ := pm
    simp only [factors_generator, List.map_flatMap]
    congr 1
    funext q
    rw [ih (q * mult), ih (q * 1), List.map_map]
    congr 1
    funext d
    simp [Function.comp, Nat.mul_assoc]

/-- A prime smaller than every prime of the pair list does not divide the
reconstructed product. -/
lemma not_dvd_pfProd (p : Nat) (hp : p.Prime) (l : List (Nat × Nat))
    (h : ∀ pm ∈ l, pm.1.Prime ∧ p < pm.1) :
    ¬ p ∣ (l.map (fun pm => pm.1 ^ pm.2)).prod := by
  induction l with
  | nil =>
    simp only [List.map_nil, List.prod_nil, Nat.dvd_one]
    have := hp.one_lt
    omega
  | cons pm rest ih =>
    intro hd
    simp only [List.map_cons, List.prod_cons] at hd
    rcases (Nat.Prime.dvd_mul hp).mp hd with h1 | h2
    · obtain ⟨hq, hlt⟩ := h pm (List.mem_cons_self pm rest)
      have hdp := hp.dvd_of_dvd_pow h1
      have heq := (Nat.prime_dvd_prime_iff_eq hp hq).mp hdp
      omega
    · exact ih (fun x hx => h x (List.mem_cons_of_mem _ hx)) h2

/-- The reconstructed product of a list of prime powers is positive. -/
lemma pfProd_pos (l : List (Nat × Nat)) (h : ∀ pm ∈ l, pm.1.Prime) :
    0 < (l.map (fun pm => pm.1 ^ pm.2)).prod := by
  apply List.prod_pos
  intro a ha
  obtain ⟨pm, hpm, rfl⟩ := List.mem_map.mp ha
  exact pow_pos (h pm hpm).pos pm.2

/-- Membership in `factors_generator 1 l`: exactly the divisors of the
reconstructed product, for a well-formed pair list. -/
lemma factors_generator_mem (l : List (Nat × Nat)) :
    l.Pairwise (fun a b => a.1 < b.1) → (∀ pm ∈ l, pm.1.Prime) →
      ∀ d, d ∈ factors_generator 1 l ↔ d ∣ (l.map (fun pm => pm.1 ^ pm.2)).prod := by
  induction l with
  | nil =>
    intro _ _ d
    simp [factors_generator, Nat.dvd_one]
  | cons pm rest ih =>
    intro hpw hpr d
    obtain ⟨p, m⟩ := pm
    have hp : p.Prime := hpr (p, m) (List.mem_cons_self _ rest)
    obtain ⟨hhead, htail⟩ := List.pairwise_cons.mp hpw
    have hprr : ∀ x ∈ rest, x.1.Prime := fun x hx => hpr x (List.mem_cons_of_mem _ hx)
    have hpR : ¬ p ∣ (rest.map (fun pm => pm.1 ^ pm.2)).prod :=
      not_dvd_pfProd p hp rest (fun x hx => ⟨hprr x hx, hhead x hx⟩)
    have hRpos : 0 < (rest.map (fun pm => pm.1 ^ pm.2)).prod := pfProd_pos rest hprr
    simp only [factors_generator, List.mem_flatMap, List.mem_map, List.mem_range,
      List.map_cons, List.prod_cons]
    constructor
    · rintro ⟨q, ⟨j, hj, rfl⟩, hdq⟩
      rw [factors_generator_mul] at hdq
      obtain ⟨d', hd', rfl⟩ := List.mem_map.mp hdq
      have hd'R := (ih htail hprr d').mp hd'
      have h1 : p ^ j ∣ p ^ m := pow_dvd_pow p (by omega)
      calc d' * (p ^ j * 1) = p ^ j * d' := by ring
        _ ∣ p ^ m * (rest.map (fun pm => pm.1 ^ pm.2)).prod := mul_dvd_mul h1 hd'R
    · intro hd
      have hd0 : d ≠ 0 := by
        rintro rfl
        rw [Nat.zero_dvd] at hd
        have := pow_pos hp.pos m
        nlinarith [hRpos]
      refine ⟨p ^ (d.factorization p), ⟨d.factorization p, ?_, rfl⟩, ?_⟩
      · -- d.factorization p ≤ m
        have hproj : p ^ (d.factorization p) ∣ d := Nat.ordProj_dvd d p
        have hcop : Nat.Coprime (p ^ (d.factorization p))
            ((rest.map (fun pm => pm.1 ^ pm.2)).prod) :=
          Nat.Coprime.pow_left _ ((Nat.Prime.coprime_iff_not_dvd hp).mpr hpR)
        have hdvd : p ^ (d.factorization p)
            ∣ p ^ m * (rest.map (fun pm => pm.1 ^ pm.2)).prod := hproj.trans hd
        have hpow : p ^ (d.factorization p) ∣ p ^ m :=
          Nat.Coprime.dvd_of_dvd_mul_right hcop hdvd
        have := (Nat.pow_dvd_pow_iff_le_right hp.one_lt).mp hpow
        omega
      · rw [factors_generator_mul]
        apply List.mem_map.mpr
        refine ⟨d / p ^ (d.factorization p), ?_, ?_⟩
        · apply (ih htail hprr _).mpr
          have hd' : d / p ^ (d.factorization p) ∣ d := Nat.ordCompl_dvd d p
          have hcop : Nat.Coprime (d / p ^ (d.factorization p)) (p ^ m) :=
            Nat.Coprime.pow_right _
              (Nat.Coprime.symm ((Nat.Prime.coprime_iff_not_dvd hp).mpr
                (Nat.not_dvd_ordCompl hp hd0)))
          exact Nat.Coprime.dvd_of_dvd_mul_left hcop (hd'.trans hd)
        · have := Nat.ordProj_mul_ordCompl_eq_self d p
          ring_nf
          omega

/-- Each element of `factors_generator (p ^ j) rest` has `p`-adic valuation
exactly `j`, when `p` does not divide the reconstructed product of `rest`. -/
lemma factors_generator_factorization (rest : List (Nat × Nat)) (p : Nat)
    (hp : p.Prime)
    (hpw : rest.Pairwise (fun a b => a.1 < b.1)) (hpr : ∀ pm ∈ rest, pm.1.Prime)
    (hpR : ¬ p ∣ (rest.map (fun pm => pm.1 ^ pm.2)).prod)
    (j d : Nat) (hd : d ∈ factors_generator (p ^ j) rest) :
    d.factorization p = j := by
  rw [factors_generator_mul] at hd
  obtain ⟨d', hd', rfl⟩ := List.mem_map.mp hd
  have hd'R := (factors_generator_mem rest hpw hpr d').mp hd'
  have hd'0 : d' ≠ 0 := by
    rintro rfl
    rw [Nat.zero_dvd] at hd'R
    exact hpR (hd'R ▸ dvd_zero p)
  have hpd' : ¬ p ∣ d' := fun hdvd => hpR (hdvd.trans hd'R)
  rw [Nat.factorization_mul hd'0 (pow_pos hp.pos j).ne',
    Finsupp.add_apply, Nat.factorization_eq_zero_of_not_dvd hpd',
    hp.factorization_pow, Finsupp.single_eq_same]
  omega

/-- `factors_generator 1 l` has no duplicates for a well-formed pair list. -/
lemma factors_generator_nodup (l : List (Nat × Nat)) :
    l.Pairwise (fun a b => a.1 < b.1) → (∀ pm ∈ l, pm.1.Prime) →
      (factors_generator 1 l).Nodup := by
  induction l with
  | nil =>
    intro _ _
    simp [factors_generator]
  | cons pm rest ih =>
    intro hpw hpr
    obtain ⟨p, m⟩ := pm
    have hp : p.Prime := hpr (p, m) (List.mem_cons_self _ rest)
    obtain ⟨hhead, htail⟩ := List.pairwise_cons.mp hpw
    have hprr : ∀ x ∈ rest, x.1.Prime := fun x hx => hpr x (List.mem_cons_of_mem _ hx)
    have hpR : ¬ p ∣ (rest.map (fun pm => pm.1 ^ pm.2)).prod :=
      not_dvd_pfProd p hp rest (fun x hx => ⟨hprr x hx, hhead x hx⟩)
    simp only [factors_generator]
    rw [List.nodup_flatMap]
    constructor
    · intro q hq
      rw [factors_generator_mul]
      apply List.Nodup.map
      · obtain ⟨j, hj, rfl⟩ := List.mem_map.mp hq
        intro a b hab
        exact Nat.eq_of_mul_eq_mul_right
          (Nat.mul_pos (pow_pos hp.pos j) Nat.one_pos) hab
      · exact ih htail hprr
    · rw [List.pairwise_map]
      have hr : (List.range (m + 1)).Pairwise (· < ·) := List.pairwise_lt_range _
      apply hr.imp
      intro j1 j2 hlt
      intro d hd1 hd2
      have e1 : d.factorization p = j1 :=
        factors_generator_factorization rest p hp htail hprr hpR j1 d
          (by simpa using hd1)
      have e2 : d.factorization p = j2 :=
        factors_generator_factorization rest p hp htail hprr hpR j2 d
          (by simpa using hd2)
      omega

/-- The number of elements produced by `factors_generator` is the product of
`(multiplicity + 1)` over the pair list. -/
lemma factors_generator_length (l : List (Nat × Nat)) :
    ∀ mult, (factors_generator mult l).length
      = (l.map (fun pm => pm.2 + 1)).prod := by
  induction l with
  | nil => intro mult; simp [factors_generator]
  | cons pm rest ih =>
    intro mult
    obtain ⟨p, m⟩ := pm
    simp only [factors_generator, List.map_cons, List.prod_cons, List.flatMap,
      List.length_flatten, List.map_map]
    have hconst : (List.range (m + 1)).map
          ((fun l => l.length) ∘ (fun q => factors_generator (q * mult) rest)
            ∘ (fun pow => p ^ pow))
        = (List.range (m + 1)).map
            (fun _ => (rest.map (fun pm => pm.2 + 1)).prod) := by
      apply List.map_congr_left
      intro x _
      simp only [Function.comp]
      exact ih _
    rw [hconst, List.map_const', List.length_range, List.sum_replicate, smul_eq_mul]

end PrimeFactorSieve

/-! ### Correctness of `coprime` -/

/-- Unfolding equation for the merge-walk loop. -/
lemma coprimeWalk_unfold (ap : Nat) (al : List Nat) (bp : Nat) (bl : List Nat) :
    coprimeWalk ap al bp bl =
      if ap = bp then false
      else if ap < bp then
        match al with
        | [] => true
        | ap' :: al' => coprimeWalk ap' al' bp bl
      else
        match bl with
        | [] => true
        | bp' :: bl' => coprimeWalk ap al bp' bl' := by
  rw [coprimeWalk.eq_def]

/-- The merge walk returns `true` exactly when the two (sorted) prime lists share
no element. -/
lemma coprimeWalk_spec : ∀ (ap : Nat) (al : List Nat) (bp : Nat) (bl : List Nat),
    (ap :: al).Pairwise (· < ·) → (bp :: bl).Pairwise (· < ·) →
    (coprimeWalk ap al bp bl = true
      ↔ ∀ p, p ∈ ap :: al → p ∈ bp :: bl → False) := by
  intro ap al bp bl
  induction ap, al, bp, bl using coprimeWalk.induct with
  | case1 al bp bl =>
    intro _ _
    rw [coprimeWalk_unfold, if_pos rfl]
    constructor
    · intro h
      exact absurd h (by simp)
    · intro h
      exact (h bp (List.mem_cons_self _ _) (List.mem_cons_self _ _)).elim
  | case2 ap bp bl hne hlt =>
    intro _ hb
    have heval : coprimeWalk ap [] bp bl = true := by
      rw [coprimeWalk_unfold, if_neg hne, if_pos hlt]
    rw [heval]
    constructor
    · intro _ p hp hpb
      rw [List.mem_singleton] at hp
      subst hp
      rcases List.mem_cons.mp hpb with rfl | hpb'
      · exact hne rfl
      · have := (List.pairwise_cons.mp hb).1 p hpb'
        omega
    · intro _
      rfl
  | case3 ap bp bl hne hlt ap' al' ih =>
    intro ha hb
    have heval : coprimeWalk ap (ap' :: al') bp bl = coprimeWalk ap' al' bp bl := by
      rw [coprimeWalk_unfold, if_neg hne, if_pos hlt]
    rw [heval, ih (List.pairwise_cons.mp ha).2 hb]
    constructor
    · intro h p hp hpb
      rcases List.mem_cons.mp hp with rfl | hp'
      · rcases List.mem_cons.mp hpb with rfl | hpb'
        · exact hne rfl
        · have := (List.pairwise_cons.mp hb).1 p hpb'
          omega
      · exact h p hp' hpb
    · intro h p hp hpb
      exact h p (List.mem_cons_of_mem _ hp) hpb
  | case4 ap al bp hne hnlt =>
    intro ha _
    have heval : coprimeWalk ap al bp [] = true := by
      rw [coprimeWalk_unfold, if_neg hne, if_neg hnlt]
    rw [heval]
    constructor
    · intro _ p hp hpb
      rw [List.mem_singleton] at hpb
      subst hpb
      rcases List.mem_cons.mp hp with rfl | hp'
      · exact hne rfl
      · have := (List.pairwise_cons.mp ha).1 p hp'
        omega
    · intro _
      rfl
  | case5 ap al bp hne hnlt bp' bl' ih =>
    intro ha hb
    have heval : coprimeWalk ap al bp (bp' :: bl') = coprimeWalk ap al bp' bl' := by
      rw [coprimeWalk_unfold, if_neg hne, if_neg hnlt]
    rw [heval, ih ha (List.pairwise_cons.mp hb).2]
    constructor
    · intro h p hp hpb
      rcases List.mem_cons.mp hpb with rfl | hpb'
      · rcases List.mem_cons.mp hp with rfl | hp'
        · exact hne rfl
        · have := (List.pairwise_cons.mp ha).1 p hp'
          omega
      · exact h p hp hpb'
    · intro h p hp hpb
      exact h p hp (List.mem_cons_of_mem _ hpb)

/-! ### The master lemma instantiated at the constructed sieve -/

/-- The `prime_factors` characterization for a sieve built by `new N`. -/
lemma new_prime_factors_spec (N n : Nat) (h1 : 1 ≤ n) (hN : n ≤ N) :
    (((PrimeFactorSieve.new N).prime_factors n).map (fun pm => pm.1 ^ pm.2)).prod
        = n ∧
      ((PrimeFactorSieve.new N).prime_factors n).Pairwise (fun a b => a.1 < b.1) ∧
      ∀ pm ∈ (PrimeFactorSieve.new N).prime_factors n,
        pm.1.Prime ∧ 0 < pm.2 ∧ pm.2 = n.factorization pm.1 :=
  primeFactorsLoop_spec N (sieveTable N) (sieveTable_getD N) n h1 hN n le_rfl

/-- The primes appearing in `prime_factors n` are exactly the prime divisors
of `n`. -/
lemma new_prime_factors_mem (N n : Nat) (h1 : 1 ≤ n) (hN : n ≤ N) (p : Nat) :
    p ∈ ((PrimeFactorSieve.new N).prime_factors n).map Prod.fst
      ↔ p.Prime ∧ p ∣ n := by
  obtain ⟨hprod, hpw, hmem⟩ := new_prime_factors_spec N n h1 hN
  constructor
  · intro hp
    obtain ⟨pm, hpm, rfl⟩ := List.mem_map.mp hp
    obtain ⟨hq, hpos, hfac⟩ := hmem pm hpm
    exact ⟨hq, Nat.dvd_of_factorization_pos (by omega)⟩
  · rintro ⟨hp, hdvd⟩
    have hdp : p ∣ (((PrimeFactorSieve.new N).prime_factors n).map
        (fun pm => pm.1 ^ pm.2)).prod := by
      rw [hprod]
      exact hdvd
    obtain ⟨x, hx, hpx⟩ := (Prime.dvd_prod_iff hp.prime).mp hdp
    obtain ⟨pm, hpm, rfl⟩ := List.mem_map.mp hx
    have hq := (hmem pm hpm).1
    have hdq := hp.dvd_of_dvd_pow hpx
    have heq := (Nat.prime_dvd_prime_iff_eq hp hq).mp hdq
    exact List.mem_map.mpr ⟨pm, hpm, heq.symm⟩

/-- `coprime a b` decides the absence of a common prime in the two
factor lists. -/
lemma coprime_iff_no_common_prime (N a b : Nat)
    (ha1 : 1 ≤ a) (haN : a ≤ N) (hb1 : 1 ≤ b) (hbN : b ≤ N) :
    ((PrimeFactorSieve.new N).coprime a b = true
      ↔ ∀ p, p ∈ ((PrimeFactorSieve.new N).prime_factors a).map Prod.fst
          → p ∈ ((PrimeFactorSieve.new N).prime_factors b).map Prod.fst
          → False) := by
  have hpwa : (((PrimeFactorSieve.new N).prime_factors a).map Prod.fst).Pairwise
      (· < ·) :=
    List.pairwise_map.mpr ((new_prime_factors_spec N a ha1 haN).2.1.imp (fun h => h))
  have hpwb : (((PrimeFactorSieve.new N).prime_factors b).map Prod.fst).Pairwise
      (· < ·) :=
    List.pairwise_map.mpr ((new_prime_factors_spec N b hb1 hbN).2.1.imp (fun h => h))
  rcases hA : ((PrimeFactorSieve.new N).prime_factors a).map Prod.fst
    with _ | ⟨ap, al⟩
    <;> rcases hB : ((PrimeFactorSieve.new N).prime_factors b).map Prod.fst
      with _ | ⟨bp, bl⟩
  · simp [PrimeFactorSieve.coprime, hA, hB]
  · simp [PrimeFactorSieve.coprime, hA, hB]
  · simp [PrimeFactorSieve.coprime, hA, hB]
  · rw [hA] at hpwa
    rw [hB] at hpwb
    have : (PrimeFactorSieve.new N).coprime a b = coprimeWalk ap al bp bl := by
      rw [PrimeFactorSieve.coprime, hA, hB]
    rw [this]
    exact coprimeWalk_spec ap al bp bl hpwa hpwb

/-! ### Characterization of `primes()` -/

/-- Dropping the first two entries of `range k` gives `range' 2 (k - 2)`. -/
lemma drop_two_range (k : Nat) : (List.range k).drop 2 = List.range' 2 (k - 2) := by
  rcases k with _ | _ | k
  · rfl
  · rfl
  · rw [List.range_eq_range', List.range'_succ, List.range'_succ]
    rfl

/-- One-step `range'` membership, specialized to start `2`. -/
lemma mem_range'_two (c m : Nat) : m ∈ List.range' 2 c ↔ 2 ≤ m ∧ m < 2 + c := by
  rw [List.mem_range']
  constructor
  · rintro ⟨i, hi, rfl⟩
    omega
  · intro h
    exact ⟨m - 2, by omega, by omega⟩

/-- Membership in the `primes()` list of a constructed sieve: exactly the primes
up to `N`. -/
lemma new_primes_mem (N p : Nat) :
    p ∈ (PrimeFactorSieve.new N).primes ↔ p.Prime ∧ p ≤ N := by
  have hsp : (PrimeFactorSieve.new N).smallest_prime_factors = sieveTable N := rfl
  rw [PrimeFactorSieve.primes, List.mem_filter, hsp, sieveTable_length,
    drop_two_range, mem_range'_two, beq_iff_eq, sieveTable_getD]
  constructor
  · rintro ⟨hr, hfil⟩
    have h2 : 2 ≤ p ∧ p ≤ N := by omega
    rw [if_pos h2] at hfil
    exact ⟨Nat.prime_def_minFac.mpr ⟨h2.1, hfil⟩, h2.2⟩
  · rintro ⟨hp, hpN⟩
    have h2 : 2 ≤ p := hp.two_le
    refine ⟨by omega, ?_⟩
    rw [if_pos ⟨h2, hpN⟩]
    exact hp.minFac_eq

/-- The `primes()` list is strictly increasing. -/
lemma new_primes_sorted (N : Nat) :
    (PrimeFactorSieve.new N).primes.Pairwise (· < ·) := by
  rw [PrimeFactorSieve.primes]
  apply List.Pairwise.filter
  exact List.Pairwise.sublist (List.drop_sublist _ _) (List.pairwise_lt_range _)

/-- The product of a list of naturals that are all at least `2` dominates
`2 ^ length`. -/
lemma two_pow_length_le_prod (l : List Nat) (h : ∀ x ∈ l, 2 ≤ x) :
    2 ^ l.length ≤ l.prod := by
  induction l with
  | nil => simp
  | cons x l ih =>
    simp only [List.length_cons, List.prod_cons, pow_succ]
    have h1 := h x (List.mem_cons_self _ _)
    have h2 := ih (fun y hy => h y (List.mem_cons_of_mem _ hy))
    calc 2 ^ l.length * 2 ≤ l.prod * x := Nat.mul_le_mul h2 h1
      _ = x * l.prod := Nat.mul_comm _ _

/-! ### Claim theorems -/

/-- C1: for every `1 ≤ n ≤ N`, the product of `p ^ m` over the pairs yielded by
`prime_factors(n)` equals `n` exactly; in particular `prime_factors(1)` yields
an empty sequence. -/
theorem claim_C1_roundtrip (N n : Nat) (h1 : 1 ≤ n) (hN : n ≤ N) :
    (((PrimeFactorSieve.new N).prime_factors n).map (fun pm => pm.1 ^ pm.2)).prod
        = n
      ∧ (PrimeFactorSieve.new N).prime_factors 1 = [] :=
  ⟨(new_prime_factors_spec N n h1 hN).1, rfl⟩

/-- Witness for C1 at `N = 10`, `n = 6`. -/
theorem claim_C1_roundtrip_witness :
    1 ≤ 6 ∧ 6 ≤ 10
      ∧ ((((PrimeFactorSieve.new 10).prime_factors 6).map
            (fun pm => pm.1 ^ pm.2)).prod = 6
        ∧ (PrimeFactorSieve.new 10).prime_factors 1 = []) :=
  ⟨by decide, by decide, claim_C1_roundtrip 10 6 (by decide) (by decide)⟩

/-- C2: after `new(N)`, for every `2 ≤ n ≤ N` the table entry at `n` is prime,
divides `n`, no smaller prime divides `n`, and it equals `n` iff `n` is
prime. -/
theorem claim_C2_table_invariant (N n : Nat) (h2 : 2 ≤ n) (hN : n ≤ N) :
    Nat.Prime ((PrimeFactorSieve.new N).smallest_prime_factors.getD n 0)
      ∧ (PrimeFactorSieve.new N).smallest_prime_factors.getD n 0 ∣ n
      ∧ (∀ q, q.Prime → q ∣ n
          → ¬ q < (PrimeFactorSieve.new N).smallest_prime_factors.getD n 0)
      ∧ ((PrimeFactorSieve.new N).smallest_prime_factors.getD n 0 = n
          ↔ n.Prime) := by
  have hsp : (PrimeFactorSieve.new N).smallest_prime_factors = sieveTable N := rfl
  rw [hsp, sieveTable_getD, if_pos ⟨h2, hN⟩]
  refine ⟨Nat.minFac_prime (by omega), Nat.minFac_dvd n, ?_, ?_, ?_⟩
  · intro q hq hqd hlt
    have := Nat.minFac_le_of_dvd hq.two_le hqd
    omega
  · intro he
    exact Nat.prime_def_minFac.mpr ⟨h2, he⟩
  · intro hp
    exact hp.minFac_eq

/-- Witness for C2 at `N = 10`, `n = 9`. -/
theorem claim_C2_table_invariant_witness :
    2 ≤ 9 ∧ 9 ≤ 10
      ∧ (Nat.Prime ((PrimeFactorSieve.new 10).smallest_prime_factors.getD 9 0)
        ∧ (PrimeFactorSieve.new 10).smallest_prime_factors.getD 9 0 ∣ 9
        ∧ (∀ q, q.Prime → q ∣ 9
            → ¬ q < (PrimeFactorSieve.new 10).smallest_prime_factors.getD 9 0)
        ∧ ((PrimeFactorSieve.new 10).smallest_prime_factors.getD 9 0 = 9
            ↔ Nat.Prime 9)) :=
  ⟨by decide, by decide, claim_C2_table_invariant 10 9 (by decide) (by decide)⟩

/-- C3: for every `2 ≤ n ≤ N`, `is_prime(n)` holds iff `n` has no divisor
strictly between `1` and `n`, and it is computed as the comparison
`table[n] == n`. -/
theorem claim_C3_is_prime (N n : Nat) (h2 : 2 ≤ n) (hN : n ≤ N) :
    ((PrimeFactorSieve.new N).is_prime n = true
        ↔ ∀ d, 1 < d → d < n → ¬ d ∣ n)
      ∧ (PrimeFactorSieve.new N).is_prime n
          = ((PrimeFactorSieve.new N).smallest_prime_factors.getD n 0 == n) := by
  refine ⟨?_, rfl⟩
  have hsp : (PrimeFactorSieve.new N).smallest_prime_factors = sieveTable N := rfl
  rw [PrimeFactorSieve.is_prime, beq_iff_eq, hsp, sieveTable_getD, if_pos ⟨h2, hN⟩]
  constructor
  · intro he d hd1 hdn
    have hp : n.Prime := Nat.prime_def_minFac.mpr ⟨h2, he⟩
    exact (Nat.prime_def_lt'.mp hp).2 d hd1 hdn
  · intro h
    by_contra hne
    have hp := Nat.minFac_prime (show n ≠ 1 by omega)
    have hdvd := Nat.minFac_dvd n
    have hle := Nat.minFac_le (show 0 < n by omega)
    exact h n.minFac hp.one_lt (by omega) hdvd

/-- Witness for C3 at `N = 10`, `n = 7`. -/
theorem claim_C3_is_prime_witness :
    2 ≤ 7 ∧ 7 ≤ 10
      ∧ (((PrimeFactorSieve.new 10).is_prime 7 = true
            ↔ ∀ d, 1 < d → d < 7 → ¬ d ∣ 7)
        ∧ (PrimeFactorSieve.new 10).is_prime 7
            = ((PrimeFactorSieve.new 10).smallest_prime_factors.getD 7 0 == 7)) :=
  ⟨by decide, by decide, claim_C3_is_prime 10 7 (by decide) (by decide)⟩

/-- C4: for every `1 ≤ n ≤ N`, the primes yielded by `prime_factors(n)` are
strictly increasing, and each pair `(p, m)` has `m ≥ 1` equal to the exact
multiplicity of `p` in `n`. -/
theorem claim_C4_strictly_increasing_exact (N n : Nat) (h1 : 1 ≤ n) (hN : n ≤ N) :
    (((PrimeFactorSieve.new N).prime_factors n).map Prod.fst).Pairwise (· < ·)
      ∧ ∀ pm ∈ (PrimeFactorSieve.new N).prime_factors n,
          pm.1.Prime ∧ 1 ≤ pm.2 ∧ pm.1 ^ pm.2 ∣ n ∧ ¬ pm.1 ^ (pm.2 + 1) ∣ n := by
  obtain ⟨hprod, hpw, hmem⟩ := new_prime_factors_spec N n h1 hN
  refine ⟨List.pairwise_map.mpr (hpw.imp (fun h => h)), ?_⟩
  intro pm hpm
  obtain ⟨hq, hpos, hfac⟩ := hmem pm hpm
  refine ⟨hq, hpos, ?_, ?_⟩
  · rw [hfac]
    exact Nat.ordProj_dvd n pm.1
  · rw [hfac]
    exact Nat.pow_succ_factorization_not_dvd (by omega) hq

/-- Witness for C4 at `N = 10`, `n = 8`. -/
theorem claim_C4_strictly_increasing_exact_witness :
    1 ≤ 8 ∧ 8 ≤ 10
      ∧ ((((PrimeFactorSieve.new 10).prime_factors 8).map Prod.fst).Pairwise (· < ·)
        ∧ ∀ pm ∈ (PrimeFactorSieve.new 10).prime_factors 8,
            pm.1.Prime ∧ 1 ≤ pm.2 ∧ pm.1 ^ pm.2 ∣ 8 ∧ ¬ pm.1 ^ (pm.2 + 1) ∣ 8) :=
  ⟨by decide, by decide,
    claim_C4_strictly_increasing_exact 10 8 (by decide) (by decide)⟩

/-- C5: for every `1 ≤ n ≤ N`, `factors(n)` yields every positive divisor of `n`
exactly once, and its element count equals `factors_count(n)`, which equals the
number of positive divisors of `n`. -/
theorem claim_C5_factors (N n : Nat) (h1 : 1 ≤ n) (hN : n ≤ N) :
    ((PrimeFactorSieve.new N).factors n).Nodup
      ∧ (∀ d, d ∈ (PrimeFactorSieve.new N).factors n ↔ d ∣ n)
      ∧ ((PrimeFactorSieve.new N).factors n).length
          = (PrimeFactorSieve.new N).factors_count n
      ∧ (PrimeFactorSieve.new N).factors_count n = n.divisors.card := by
  obtain ⟨hprod, hpw, hmem⟩ := new_prime_factors_spec N n h1 hN
  have hpr : ∀ pm ∈ (PrimeFactorSieve.new N).prime_factors n, pm.1.Prime :=
    fun pm hpm => (hmem pm hpm).1
  have hnodup := PrimeFactorSieve.factors_generator_nodup _ hpw hpr
  have hmem' : ∀ d, d ∈ (PrimeFactorSieve.new N).factors n ↔ d ∣ n := by
    intro d
    rw [PrimeFactorSieve.factors,
      PrimeFactorSieve.factors_generator_mem _ hpw hpr, hprod]
  have hlen : ((PrimeFactorSieve.new N).factors n).length
      = (PrimeFactorSieve.new N).factors_count n := by
    rw [PrimeFactorSieve.factors, PrimeFactorSieve.factors_count,
      PrimeFactorSieve.factors_generator_length]
  refine ⟨hnodup, hmem', hlen, ?_⟩
  have hfin : ((PrimeFactorSieve.new N).factors n).toFinset = n.divisors := by
    ext d
    rw [List.mem_toFinset, hmem', Nat.mem_divisors]
    constructor
    · intro h
      exact ⟨h, by omega⟩
    · intro h
      exact h.1
  calc (PrimeFactorSieve.new N).factors_count n
      = ((PrimeFactorSieve.new N).factors n).length := hlen.symm
    _ = ((PrimeFactorSieve.new N).factors n).toFinset.card :=
        (List.toFinset_card_of_nodup hnodup).symm
    _ = n.divisors.card := by rw [hfin]

/-- Witness for C5 at `N = 30`, `n = 24`. -/
theorem claim_C5_factors_witness :
    1 ≤ 24 ∧ 24 ≤ 30
      ∧ (((PrimeFactorSieve.new 30).factors 24).Nodup
        ∧ (∀ d, d ∈ (PrimeFactorSieve.new 30).factors 24 ↔ d ∣ 24)
        ∧ ((PrimeFactorSieve.new 30).factors 24).length
            = (PrimeFactorSieve.new 30).factors_count 24
        ∧ (PrimeFactorSieve.new 30).factors_count 24 = (Nat.divisors 24).card) :=
  ⟨by decide, by decide, claim_C5_factors 30 24 (by decide) (by decide)⟩

/-- C6: for every `1 ≤ a, b ≤ N`, `coprime(a, b)` returns `true` iff
`gcd(a, b) = 1`, equivalently iff no prime appears in both factor lists. -/
theorem claim_C6_coprime (N a b : Nat) (ha1 : 1 ≤ a) (haN : a ≤ N)
    (hb1 : 1 ≤ b) (hbN : b ≤ N) :
    ((PrimeFactorSieve.new N).coprime a b = true ↔ Nat.gcd a b = 1)
      ∧ ((PrimeFactorSieve.new N).coprime a b = true
          ↔ ¬ ∃ p, p ∈ ((PrimeFactorSieve.new N).prime_factors a).map Prod.fst
              ∧ p ∈ ((PrimeFactorSieve.new N).prime_factors b).map Prod.fst) := by
  have hno := coprime_iff_no_common_prime N a b ha1 haN hb1 hbN
  have hiff2 : (∀ p, p ∈ ((PrimeFactorSieve.new N).prime_factors a).map Prod.fst
        → p ∈ ((PrimeFactorSieve.new N).prime_factors b).map Prod.fst → False)
      ↔ ¬ ∃ p, p ∈ ((PrimeFactorSieve.new N).prime_factors a).map Prod.fst
          ∧ p ∈ ((PrimeFactorSieve.new N).prime_factors b).map Prod.fst := by
    constructor
    · rintro h ⟨p, hpa, hpb⟩
      exact h p hpa hpb
    · intro h p hpa hpb
      exact h ⟨p, hpa, hpb⟩
  have hgcd : (∀ p, p ∈ ((PrimeFactorSieve.new N).prime_factors a).map Prod.fst
        → p ∈ ((PrimeFactorSieve.new N).prime_factors b).map Prod.fst → False)
      ↔ Nat.gcd a b = 1 := by
    constructor
    · intro h
      by_contra hg
      have hnc : ¬ Nat.Coprime a b := hg
      obtain ⟨p, hp, hpa, hpb⟩ := Nat.Prime.not_coprime_iff_dvd.mp hnc
      exact h p ((new_prime_factors_mem N a ha1 haN p).mpr ⟨hp, hpa⟩)
        ((new_prime_factors_mem N b hb1 hbN p).mpr ⟨hp, hpb⟩)
    · intro hg p hpa hpb
      obtain ⟨hp, hda⟩ := (new_prime_factors_mem N a ha1 haN p).mp hpa
      obtain ⟨-, hdb⟩ := (new_prime_factors_mem N b hb1 hbN p).mp hpb
      have hdg : p ∣ Nat.gcd a b := Nat.dvd_gcd hda hdb
      rw [hg, Nat.dvd_one] at hdg
      have := hp.one_lt
      omega
  exact ⟨hno.trans hgcd, hno.trans hiff2⟩

/-- Witness for C6 at `N = 100`, `a = 12`, `b = 35`. -/
theorem claim_C6_coprime_witness :
    1 ≤ 12 ∧ 12 ≤ 100 ∧ 1 ≤ 35 ∧ 35 ≤ 100
      ∧ ((((PrimeFactorSieve.new 100).coprime 12 35 = true ↔ Nat.gcd 12 35 = 1)
        ∧ ((PrimeFactorSieve.new 100).coprime 12 35 = true
            ↔ ¬ ∃ p, p ∈ ((PrimeFactorSieve.new 100).prime_factors 12).map Prod.fst
                ∧ p ∈ ((PrimeFactorSieve.new 100).prime_factors 35).map
                    Prod.fst))) :=
  ⟨by decide, by decide, by decide, by decide,
    claim_C6_coprime 100 12 35 (by decide) (by decide) (by decide) (by decide)⟩

set_option maxRecDepth 100000 in
/-- C7: `primes()` yields exactly the primes up to `N`, each once, in strictly
increasing order; for `N = 100` it yields the 25 primes below 100 in order. -/
theorem claim_C7_primes :
    (∀ N p, p ∈ (PrimeFactorSieve.new N).primes ↔ p.Prime ∧ p ≤ N)
      ∧ (∀ N, (PrimeFactorSieve.new N).primes.Pairwise (· < ·))
      ∧ (PrimeFactorSieve.new 100).primes
          = [2, 3, 5, 7, 11, 13, 17, 19, 23, 29, 31, 37, 41, 43, 47, 53, 59, 61,
             67, 71, 73, 79, 83, 89, 97] := by
  refine ⟨new_primes_mem, new_primes_sorted, ?_⟩
  decide

/-- C9: on every valid input, `prime_factors(n)` yields only finitely many
pairs — at most `log2 n` of them. -/
theorem claim_C9_bounded (N n : Nat) (h1 : 1 ≤ n) (hN : n ≤ N) :
    ((PrimeFactorSieve.new N).prime_factors n).length ≤ Nat.log 2 n := by
  obtain ⟨hprod, hpw, hmem⟩ := new_prime_factors_spec N n h1 hN
  have hge : ∀ x ∈ ((PrimeFactorSieve.new N).prime_factors n).map
      (fun pm => pm.1 ^ pm.2), 2 ≤ x := by
    intro x hx
    obtain ⟨pm, hpm, rfl⟩ := List.mem_map.mp hx
    obtain ⟨hq, hpos, -⟩ := hmem pm hpm
    calc 2 ≤ pm.1 := hq.two_le
      _ ≤ pm.1 ^ pm.2 := Nat.le_self_pow (by omega) pm.1
  have hlen : 2 ^ ((PrimeFactorSieve.new N).prime_factors n).length ≤ n := by
    have := two_pow_length_le_prod _ hge
    rw [List.length_map, hprod] at this
    exact this
  exact (Nat.pow_le_iff_le_log (by omega) (by omega)).mp hlen

/-- Witness for C9 at `N = 10`, `n = 8`. -/
theorem claim_C9_bounded_witness :
    1 ≤ 8 ∧ 8 ≤ 10
      ∧ ((PrimeFactorSieve.new 10).prime_factors 8).length ≤ Nat.log 2 8 :=
  ⟨by decide, by decide, claim_C9_bounded 10 8 (by decide) (by decide)⟩

/-- C10: the debug precondition of `prime_factors` checks `n ≤ table.len()`
(which is `N + 1`), not `n ≤ N`: both debug assertions pass at `n = N + 1`,
which exceeds the valid range, and the table access at index `N + 1` is out of
bounds (`¬ N + 1 < len`), so it is only caught by the bounds-checked indexing
on the first iteration. -/
theorem claim_C10_assert_off_by_one (N : Nat) :
    (PrimeFactorSieve.new N).smallest_prime_factors.length = N + 1
      ∧ (N + 1 ≠ 0
        ∧ N + 1 ≤ (PrimeFactorSieve.new N).smallest_prime_factors.length)
      ∧ ¬ (N + 1 ≤ N)
      ∧ ¬ (N + 1 < (PrimeFactorSieve.new N).smallest_prime_factors.length) := by
  have hsp : (PrimeFactorSieve.new N).smallest_prime_factors = sieveTable N := rfl
  rw [hsp, sieveTable_length]
  omega

end SieveRs
